import Mathlib

set_option maxHeartbeats 1000000

namespace Vat

/-!
Shallow embedding of the two source files of the repository (`One.py`, `Two.py`).
Strings are modelled as `List Char` (ASCII inputs).  The pieces of the Python
standard library the source leans on (`urllib.parse.urlsplit` / `urljoin`,
`str.split`, list indexing, exception propagation) are embedded faithfully so
the claims about the URL normalizer, validator, fetcher and rate extractor can
be settled against the code's actual behaviour.
-/

/-! ### Character classes (Python `re` / `str` behaviour on ASCII input) -/

def toLowerChar (c : Char) : Char :=
  if 'A' ≤ c ∧ c ≤ 'Z' then Char.ofNat (c.toNat + 32) else c

def pyIsAlpha (c : Char) : Bool :=
  (decide ('a' ≤ c) && decide (c ≤ 'z')) || (decide ('A' ≤ c) && decide (c ≤ 'Z'))

def pyIsDigit (c : Char) : Bool := decide ('0' ≤ c) && decide (c ≤ '9')

def pyIsAlnum (c : Char) : Bool := pyIsAlpha c || pyIsDigit c

def pyIsSpace (c : Char) : Bool :=
  decide (c = ' ') || decide (c = '\t') || decide (c = '\n') || decide (c = '\r') ||
  decide (c = Char.ofNat 11) || decide (c = Char.ofNat 12)

def pyIsWord (c : Char) : Bool := pyIsAlnum c || decide (c = '_')

def isAlnumDash (c : Char) : Bool := pyIsAlnum c || decide (c = '-')

/-- Characters allowed in a URL scheme by `urllib.parse` (`scheme_chars`). -/
def schemeChar (c : Char) : Bool :=
  pyIsAlpha c || pyIsDigit c || decide (c = '+') || decide (c = '-') || decide (c = '.')

/-! ### `urllib.parse.urlsplit` -/

structure SplitResult where
  scheme : List Char
  netloc : List Char
  path : List Char
  query : List Char
  fragment : List Char
deriving DecidableEq, Repr

/-- Does the candidate prefix before the first `:` qualify as a scheme?
Mirrors `urlsplit`: the colon must exist at index `i > 0`, the first character
must be a letter and all prefix characters must be scheme characters. -/
def schemeOkPre (url : List Char) : Bool :=
  decide ((url.takeWhile (fun c => !decide (c = ':'))).length < url.length) &&
  decide (0 < (url.takeWhile (fun c => !decide (c = ':'))).length) &&
  (match url with | c :: _ => pyIsAlpha c | [] => false) &&
  (url.takeWhile (fun c => !decide (c = ':'))).all schemeChar

/-- Split off the scheme; the default scheme is returned when none is found. -/
def splitScheme (url d : List Char) : List Char × List Char :=
  if schemeOkPre url then
    ((url.takeWhile (fun c => !decide (c = ':'))).map toLowerChar,
     url.drop ((url.takeWhile (fun c => !decide (c = ':'))).length + 1))
  else (d, url)

def schemeOf (url d : List Char) : List Char := (splitScheme url d).1

def afterScheme (url d : List Char) : List Char := (splitScheme url d).2

/-- Characters that terminate the netloc in `_splitnetloc`. -/
def noSplitChar (c : Char) : Bool :=
  !(decide (c = '/') || decide (c = '?') || decide (c = '#'))

def splitNetloc : List Char → List Char × List Char
  | '/' :: '/' :: r => (r.takeWhile noSplitChar, r.dropWhile noSplitChar)
  | s => ([], s)

def netlocOf (url d : List Char) : List Char := (splitNetloc (afterScheme url d)).1

def afterNetloc (url d : List Char) : List Char := (splitNetloc (afterScheme url d)).2

/-- `url.split(sep, 1)` when `sep` occurs, else `(url, "")` — matching how
`urlsplit` cuts off the fragment and the query. -/
def cutAtFirst (sep : Char) (s : List Char) : List Char × List Char :=
  (s.takeWhile (fun c => !decide (c = sep)),
   (s.dropWhile (fun c => !decide (c = sep))).drop 1)

def urlsplitD (url d : List Char) : SplitResult :=
  ⟨schemeOf url d,
   netlocOf url d,
   (cutAtFirst '?' (cutAtFirst '#' (afterNetloc url d)).1).1,
   (cutAtFirst '?' (cutAtFirst '#' (afterNetloc url d)).1).2,
   (cutAtFirst '#' (afterNetloc url d)).2⟩

def urlsplit (url : List Char) : SplitResult := urlsplitD url []

/-! ### `urllib.parse.urlparse` (params split) and `urlunparse` -/

structure ParseResult where
  scheme : List Char
  netloc : List Char
  path : List Char
  params : List Char
  query : List Char
  fragment : List Char
deriving DecidableEq, Repr

def uses_params : List (List Char) :=
  [[], "ftp".toList, "hdl".toList, "prospero".toList, "http".toList, "imap".toList,
   "https".toList, "shttp".toList, "rtsp".toList, "rtspu".toList, "sip".toList,
   "sips".toList, "mms".toList, "sftp".toList, "tel".toList]

def uses_relative : List (List Char) :=
  [[], "ftp".toList, "http".toList, "gopher".toList, "nntp".toList, "imap".toList,
   "wais".toList, "file".toList, "https".toList, "shttp".toList, "mms".toList,
   "prospero".toList, "rtsp".toList, "rtspu".toList, "sftp".toList, "svn".toList,
   "svn+ssh".toList, "ws".toList, "wss".toList]

def uses_netloc : List (List Char) :=
  [[], "ftp".toList, "http".toList, "gopher".toList, "nntp".toList, "telnet".toList,
   "imap".toList, "wais".toList, "file".toList, "mms".toList, "https".toList,
   "shttp".toList, "snews".toList, "prospero".toList, "rtsp".toList, "rtspu".toList,
   "rsync".toList, "svn".toList, "svn+ssh".toList, "sftp".toList, "nfs".toList,
   "git".toList, "git+ssh".toList, "ws".toList, "wss".toList, "itms-services".toList]

/-- Index of the last `/` exists: `_splitparams` only looks for `;` in the last
path segment.  Returns `(path-without-params, params)`. -/
def splitparams (url : List Char) : List Char × List Char :=
  if url.contains '/' then
    let j := url.length - ((url.reverse.takeWhile (fun c => !decide (c = '/'))).length + 1)
    if (url.drop j).contains ';' then
      let pre := (url.drop j).takeWhile (fun c => !decide (c = ';'))
      (url.take (j + pre.length), url.drop (j + pre.length + 1))
    else (url, [])
  else
    if url.contains ';' then
      (url.takeWhile (fun c => !decide (c = ';')),
       url.drop ((url.takeWhile (fun c => !decide (c = ';'))).length + 1))
    else (url, [])

def urlparseD (url d : List Char) : ParseResult :=
  if (urlsplitD url d).scheme ∈ uses_params ∧ (urlsplitD url d).path.contains ';' then
    ⟨(urlsplitD url d).scheme, (urlsplitD url d).netloc,
     (splitparams (urlsplitD url d).path).1, (splitparams (urlsplitD url d).path).2,
     (urlsplitD url d).query, (urlsplitD url d).fragment⟩
  else
    ⟨(urlsplitD url d).scheme, (urlsplitD url d).netloc,
     (urlsplitD url d).path, [], (urlsplitD url d).query, (urlsplitD url d).fragment⟩

/-- Inside `urlunsplit`'s netloc branch: `if url and url[:1] != '/': url = '/' + url`. -/
def forceSlash (path : List Char) : List Char :=
  if path ≠ [] ∧ path.take 1 ≠ ['/'] then '/' :: path else path

/-- `urlunparse` re-attaches params to the last path segment: `"%s;%s"`. -/
def withParams (path params : List Char) : List Char :=
  if params ≠ [] then path ++ ';' :: params else path

def urlunsplit (scheme netloc path query fragment : List Char) : List Char :=
  let url1 :=
    if netloc ≠ [] ∨ (path ≠ [] ∧ path.take 2 = ['/', '/']) then
      ['/', '/'] ++ netloc ++ forceSlash path
    else path
  let url2 := if scheme ≠ [] then scheme ++ ':' :: url1 else url1
  let url3 := if query ≠ [] then url2 ++ '?' :: query else url2
  if fragment ≠ [] then url3 ++ '#' :: fragment else url3

def urlunparse (scheme netloc path params query fragment : List Char) : List Char :=
  urlunsplit scheme netloc (withParams path params) query fragment

/-! ### `urllib.parse.urljoin` -/

/-- Python `str.split(sep)` on a single-character separator; never empty. -/
def pySplit (sep : Char) : List Char → List (List Char)
  | [] => [[]]
  | c :: rest =>
    if c = sep then [] :: pySplit sep rest
    else
      match pySplit sep rest with
      | [] => [[c]]
      | g :: gs => (c :: g) :: gs

/-- `segments[1:-1] = filter(None, segments[1:-1])` applied to the tail of the
segment list: drop empty middle segments, always keep the final one. -/
def keepLastFilter : List (List Char) → List (List Char)
  | [] => []
  | [x] => [x]
  | x :: xs => if x = [] then keepLastFilter xs else x :: keepLastFilter xs

def joinSep (sep : Char) : List (List Char) → List Char
  | [] => []
  | [l] => l
  | l :: ls => l ++ sep :: joinSep sep ls

/-- The RFC-3986 style relative path resolution inside `urljoin`. -/
def resolvePath (bpath rpath : List Char) : List Char :=
  let baseParts0 := pySplit '/' bpath
  let baseParts := if baseParts0.getLast? = some [] then baseParts0 else baseParts0.dropLast
  let segments :=
    if rpath.take 1 = ['/'] then pySplit '/' rpath
    else
      match baseParts ++ pySplit '/' rpath with
      | [] => []
      | s0 :: rest => s0 :: keepLastFilter rest
  let resolved :=
    segments.foldl
      (fun acc seg =>
        if seg = ['.', '.'] then acc.dropLast
        else if seg = ['.'] then acc
        else acc ++ [seg]) []
  let resolved2 :=
    if segments.getLast? = some ['.'] ∨ segments.getLast? = some ['.', '.'] then
      resolved ++ [[]]
    else resolved
  if joinSep '/' resolved2 = [] then ['/'] else joinSep '/' resolved2

/-- The continuation of `urljoin` once the base netloc has been chosen. -/
def joinStep (b : ParseResult) (netloc : List Char) (r : ParseResult) : List Char :=
  if r.path = [] ∧ r.params = [] then
    urlunparse r.scheme netloc b.path b.params
      (if r.query = [] then b.query else r.query) r.fragment
  else
    urlunparse r.scheme netloc (resolvePath b.path r.path) r.params r.query r.fragment

def urljoinParsed (b r : ParseResult) (url : List Char) : List Char :=
  if r.scheme ≠ b.scheme ∨ r.scheme ∉ uses_relative then url
  else if r.scheme ∈ uses_netloc ∧ r.netloc ≠ [] then
    urlunparse r.scheme r.netloc r.path r.params r.query r.fragment
  else
    joinStep b (if r.scheme ∈ uses_netloc then b.netloc else r.netloc) r

def urljoin (base url : List Char) : List Char :=
  if base = [] then url
  else if url = [] then base
  else urljoinParsed (urlparseD base []) (urlparseD url (urlparseD base []).scheme) url

/-! ### `Worker._ensure_img_abs_urls` (One.py, the URL Normalizer) -/

/-- The per-element transformation performed by the loop body. -/
def singleNorm (url s : List Char) : List Char :=
  if (urlsplit s).scheme ≠ [] ∧ (urlsplit s).netloc ≠ [] then s else urljoin url s

/-- The loop of `_ensure_img_abs_urls`: `for i in range(len(image_urls))`,
re-reading and overwriting `image_urls[i]` in place. -/
def ensureImgAbsUrls (url : List Char) (imgs : List (List Char)) : List (List Char) :=
  (List.range imgs.length).foldl
    (fun acc i =>
      if (urlsplit (acc.getD i [])).scheme ≠ [] ∧ (urlsplit (acc.getD i [])).netloc ≠ [] then
        acc
      else acc.set i (urljoin url (acc.getD i []))) imgs

/-! ### `URL_PATTERN` / `_is_valid_url` (One.py, the URL Validator)

The compiled regular expression is embedded as a recognizer whose pieces
mirror the pattern's pieces one for one.  Backtracking choices that matter for
acceptance are kept as explicit disjunctions; bounded greedy repetitions whose
shorter matches provably cannot lead to acceptance (because the following
literal cannot match mid-run) are translated to maximal-run matching. -/

/-- Case-insensitive literal match (the pattern is compiled with IGNORECASE);
the literal is given in lowercase.  Returns the remaining input. -/
def matchLit : List Char → List Char → Option (List Char)
  | [], s => some s
  | _ :: _, [] => none
  | c :: cs, x :: xs => if toLowerChar x = c then matchLit cs xs else none

/-- `(?:^https?://)` — the required scheme prefix. -/
def stripSchemePart (s : List Char) : Option (List Char) :=
  match matchLit "http".toList s with
  | none => none
  | some r =>
    match matchLit "://".toList r with
    | some r2 => some r2
    | none => matchLit "s://".toList r

/-- Python `$` (no MULTILINE): matches at the end of input, or just before a
single final newline. -/
def pyEndDollar (s : List Char) : Bool := decide (s = []) || decide (s = ['\n'])

/-- `\S+$`: one or more non-whitespace characters followed by `$`. -/
def nonSpacePlusEnd : List Char → Bool
  | [] => false
  | c :: r => !pyIsSpace c && (pyEndDollar r || nonSpacePlusEnd r)

/-- `(?:/?|[/?]\S+)$` — the trailing slash / path-or-query part. -/
def matchTailEnd (s : List Char) : Bool :=
  pyEndDollar s ||
    (match s with
     | c :: r =>
       if c = '/' then pyEndDollar r || nonSpacePlusEnd r
       else if c = '?' then nonSpacePlusEnd r
       else false
     | [] => false)

/-- `(:\d{1,5})?` followed by the trailing part.  The digit run must be taken
maximally: a leftover digit can never start the trailing part. -/
def matchPortTail (s : List Char) : Bool :=
  matchTailEnd s ||
    (match s with
     | c :: r =>
       if c = ':' then
         decide (1 ≤ (r.takeWhile pyIsDigit).length) &&
         decide ((r.takeWhile pyIsDigit).length ≤ 5) &&
         matchTailEnd (r.drop (r.takeWhile pyIsDigit).length)
       else false
     | [] => false)

/-- The language of one host label `[a-z0-9](?:[a-z0-9-]{0,61}[a-z0-9])?`
(IGNORECASE): 1–63 characters, first and last alphanumeric, internal dashes
allowed. -/
def labelOk : List Char → Bool
  | [] => false
  | [c] => pyIsAlnum c
  | c :: rest =>
    pyIsAlnum c && decide (rest.length ≤ 62) &&
    (match rest.getLast? with | some d => pyIsAlnum d | none => false) &&
    rest.dropLast.all isAlnumDash

/-- Consume one `(?:LABEL\.)` chunk.  The label's characters cannot include a
dot, so the chunk must cover the whole run up to the next dot. -/
def consumeChunk (s : List Char) : Option (List Char) :=
  if labelOk (s.takeWhile isAlnumDash) ∧
     ((s.drop (s.takeWhile isAlnumDash).length).take 1 = ['.']) then
    some (s.drop ((s.takeWhile isAlnumDash).length + 1))
  else none

/-- `(?:[a-z0-9]{1,63})` (the top-level label) followed by the port and
trailing part.  The alphanumeric run must be taken maximally: a leftover
alphanumeric character can never start the port or trailing part. -/
def tldTail (s : List Char) : Bool :=
  decide (1 ≤ (s.takeWhile pyIsAlnum).length) &&
  decide ((s.takeWhile pyIsAlnum).length ≤ 63) &&
  matchPortTail (s.drop (s.takeWhile pyIsAlnum).length)

/-- After at least one label chunk: either finish with the top-level label and
the port/trailing part, or consume another chunk.  `fuel` bounds the number of
chunks (each chunk consumes at least two characters). -/
def hostCont : Nat → List Char → Bool
  | 0, s => tldTail s
  | fuel + 1, s =>
    tldTail s ||
      (match consumeChunk s with
       | some r => hostCont fuel r
       | none => false)

/-- `((?:[a-z0-9](?:[a-z0-9-]{0,61}[a-z0-9])?\.)+(?:[a-z0-9]{1,63}))` —
at least one dotted label, then the top-level label, then port/trailing. -/
def hostBody (s : List Char) : Bool :=
  match consumeChunk s with
  | some r => hostCont r.length r
  | none => false

/-- `(?:$|:)` as seen by the length lookahead. -/
def dollarOrColon (s : List Char) : Bool := pyEndDollar s || decide (s.take 1 = [':'])

/-- `(?=\S{0,253}(?:$|:))` — the total-host-length lookahead. -/
def lookaheadOk : Nat → List Char → Bool
  | 0, s => dollarOrColon s
  | fuel + 1, s =>
    dollarOrColon s ||
      (match s with
       | c :: r => !pyIsSpace c && lookaheadOk fuel r
       | [] => false)

/-- The host alternation `(?:(?=\S{0,253}(?:$|:))(labels))|localhost` followed
by the optional port and the trailing part. -/
def matchHostPort (s : List Char) : Bool :=
  (lookaheadOk 253 s && hostBody s) ||
    (match matchLit "localhost".toList s with
     | some r => matchPortTail r
     | none => false)

/-- `.{1,255}@` and then the host: try every split of the password part (any
non-newline characters, at least one, at most 255) before a literal `@`. -/
def tryPassAt : Nat → List Char → Bool
  | 0, _ => false
  | _ + 1, [] => false
  | fuel + 1, c :: rest =>
    !decide (c = '\n') &&
      ((match rest with
        | '@' :: after => matchHostPort after
        | _ => false) ||
       tryPassAt fuel rest)

/-- `(?:(\w{1,255}):(.{1,255})@)` then host.  The username run is maximal:
`:` is not a word character, so a shorter username cannot be followed by `:`. -/
def matchAuthThen (s : List Char) : Bool :=
  decide (1 ≤ (s.takeWhile pyIsWord).length) &&
  decide ((s.takeWhile pyIsWord).length ≤ 255) &&
  decide ((s.drop (s.takeWhile pyIsWord).length).take 1 = [':']) &&
  tryPassAt 255 (s.drop ((s.takeWhile pyIsWord).length + 1))

/-- Acceptance of `URL_PATTERN` by `re.match` (the pattern ends in `$`, so
this is a full match up to an optional final newline). -/
def URL_PATTERN_match (s : List Char) : Bool :=
  match stripSchemePart s with
  | none => false
  | some r => matchAuthThen r || matchHostPort r

/-- `_is_valid_url` from One.py. -/
def _is_valid_url (s : List Char) : Bool := URL_PATTERN_match s

/-- Join host labels with dots (used to quantify over hosts in the claims). -/
def joinDots : List (List Char) → List Char
  | [] => []
  | [l] => l
  | l :: ls => l ++ '.' :: joinDots ls

/-! ### `Worker._get_page_source` (One.py, the Page Acquirer) -/

/-- The Python exceptions that can reach the `try` block of
`_get_page_source`, plus `KeyError` from the headers lookup. -/
inductive PyExc where
  | httpError
  | connectionError
  | keyError
  | indexError
deriving DecidableEq, Repr

/-- The two exception classes named in the `except` clause. -/
inductive ExcClass where
  | HTTPError
  | RequestException
deriving DecidableEq, Repr

/-- Python class objects are truthy. -/
def classTruthy : ExcClass → Bool := fun _ => true

/-- Python `or` on two class objects returns the first truthy operand. -/
def pyOrClass (a b : ExcClass) : ExcClass := if classTruthy a then a else b

/-- `except HTTPError or RequestException` evaluates its expression first:
the handler is registered for `pyOrClass HTTPError RequestException` only. -/
def handlerClass : ExcClass := pyOrClass ExcClass.HTTPError ExcClass.RequestException

def isinstanceOf : PyExc → ExcClass → Bool
  | .httpError, .HTTPError => true
  | .httpError, .RequestException => true
  | .connectionError, .RequestException => true
  | _, _ => false

structure HttpResponse where
  status : Nat
  headers : List (List Char × List Char)
  body : List Char
deriving DecidableEq, Repr

/-- What `requests.get` did: returned a response, or raised. -/
inductive GetResult where
  | ok (r : HttpResponse)
  | raises (e : PyExc)
deriving DecidableEq, Repr

/-- `requests.get` + `response.raise_for_status()`: `raise_for_status` raises
`HTTPError` exactly for 4xx/5xx status codes. -/
def fetchTryBlock : GetResult → Except PyExc HttpResponse
  | .raises e => .error e
  | .ok r => if 400 ≤ r.status ∧ r.status < 600 then .error .httpError else .ok r

/-- Case-insensitive header lookup (`requests` uses a case-insensitive dict);
a missing key raises `KeyError`. -/
def headerLookup (headers : List (List Char × List Char)) (name : List Char) :
    Option (List Char) :=
  (headers.find? (fun kv => kv.1.map toLowerChar = name)).map (·.2)

/-- Does `hay` start with `needle`? -/
def listStartsWith : List Char → List Char → Bool
  | [], _ => true
  | _ :: _, [] => false
  | c :: cs, x :: xs => decide (c = x) && listStartsWith cs xs

/-- Python substring membership `needle in hay`. -/
def listHasSub (needle : List Char) : List Char → Bool
  | [] => listStartsWith needle []
  | x :: xs => listStartsWith needle (x :: xs) || listHasSub needle xs

/-- `'text/html' in value` — Python substring membership. -/
def containsHtml (v : List Char) : Bool := listHasSub "text/html".toList v

/-- `Worker._get_page_source`.  `.ok (b, src)` models a normal return of `b`
(with `self.page_source` set to `src` on success); `.error e` models an
exception escaping the method uncaught. -/
def _get_page_source (res : GetResult) : Except PyExc (Bool × Option (List Char)) :=
  match fetchTryBlock res with
  | .error e => if isinstanceOf e handlerClass then .ok (false, none) else .error e
  | .ok r =>
    match headerLookup r.headers "content-type".toList with
    | none => .error .keyError
    | some ct => if containsHtml ct then .ok (true, some r.body) else .ok (false, none)

/-! ### `Worker._parse_page_source` (One.py, the Structured Page Parser)

The lxml document tree is modelled as a rose tree; each element carries its
tag, attributes and text.  The method runs after `html.fromstring`
succeeded, so the model takes the parsed root element as input. -/

inductive HNode where
  | elem (tag : List Char) (attrs : List (List Char × List Char)) (text : List Char)
      (children : List HNode)

def HNode.tag : HNode → List Char
  | .elem t _ _ _ => t

def HNode.attrs : HNode → List (List Char × List Char)
  | .elem _ a _ _ => a

def HNode.text : HNode → List Char
  | .elem _ _ x _ => x

def HNode.children : HNode → List HNode
  | .elem _ _ _ cs => cs

/-- All strict descendants of the nodes of a list, in document order. -/
def descList : List HNode → List HNode
  | [] => []
  | HNode.elem t a x cs :: ns => HNode.elem t a x cs :: (descList cs ++ descList ns)

/-- One `child::tag` xpath step applied to a node set. -/
def xpathChild (tag : List Char) (ns : List HNode) : List HNode :=
  ns.flatMap (fun n => n.children.filter (fun c => c.tag = tag))

/-- Attribute lookup on an element. -/
def attrOf (n : HNode) (name : List Char) : Option (List Char) :=
  (n.attrs.find? (fun kv => kv.1 = name)).map (·.2)

structure ParsedPage where
  title : List Char
  stylesheets : Nat
  image_urls : List (List Char)
deriving DecidableEq, Repr

/-- `Worker._parse_page_source` after a successful `html.fromstring`:
`./head/title` (first match or empty), count of `.//link[@rel='stylesheet']`,
and `./body//img/@src` in document order. -/
def _parse_page_source (root : HNode) : ParsedPage :=
  { title :=
      match xpathChild "title".toList (xpathChild "head".toList [root]) with
      | [] => []
      | t :: _ => t.text,
    stylesheets :=
      ((descList root.children).filter
        (fun n => n.tag = "link".toList ∧ attrOf n "rel".toList = some "stylesheet".toList)).length,
    image_urls :=
      (xpathChild "body".toList [root]).flatMap
        (fun b => (descList b.children).filter (fun n => n.tag = "img".toList))
        |>.filterMap (fun n => attrOf n "src".toList) }

/-- The claim-side description of `./head/title`: all `title` elements that
are direct children of a `head` child of the root, in document order. -/
def headTitleList (root : HNode) : List HNode :=
  (root.children.filter (fun h => h.tag = "head".toList)).flatMap
    (fun h => h.children.filter (fun t => t.tag = "title".toList))

/-! ### `_get_latest_ecb_rate` and `_last_month` (Two.py) -/

/-- Outcome of a Python list indexing operation. -/
inductive EcbResult where
  | ok (x : ℚ)
  | indexError
deriving DecidableEq, Repr

/-- Python list indexing `values[i]` with negative-index wrap-around and
`IndexError` out of range. -/
def pyIndex (values : List ℚ) (i : Int) : EcbResult :=
  if h : 0 ≤ (if i < 0 then i + values.length else i) ∧
         (if i < 0 then i + values.length else i) < (values.length : Int) then
    .ok (values.get ⟨(if i < 0 then i + values.length else i).toNat, by omega⟩)
  else .indexError

/-- `_get_latest_ecb_rate` applied to the extracted observation values:
`last_value = len(values) - 1; return float(values[last_value])`. -/
def _get_latest_ecb_rate (values : List ℚ) : EcbResult :=
  pyIndex values ((values.length : Int) - 1)

/-- Decimal digits of a natural number, most significant first (fuel-based so
it evaluates by kernel reduction). -/
def natDigitsAux : Nat → Nat → List Char → List Char
  | 0, _, acc => acc
  | fuel + 1, n, acc =>
    if n < 10 then Char.ofNat (48 + n % 10) :: acc
    else natDigitsAux fuel (n / 10) (Char.ofNat (48 + n % 10) :: acc)

def natChars (n : Nat) : List Char := natDigitsAux (n + 1) n []

/-- Python `f"{v:02d}"` for a non-negative value. -/
def pad2 (n : Nat) : List Char := if n < 10 then '0' :: natChars n else natChars n

/-- `_last_month` from Two.py, as a function of the current UTC year and
month (`tm_year`, `tm_mon` with `1 ≤ tm_mon ≤ 12`). -/
def _last_month (year month : Nat) : List Char :=
  if 1 < month then natChars year ++ '-' :: pad2 (month - 1)
  else natChars (year - 1) ++ ('-' :: '1' :: '2' :: [])

/-- Spec-side definition (refinement comparison, following the spec's words):
the calendar month before `(year, month)`, wrapping January to December of
the prior year. -/
def specPrevMonth (year month : Nat) : Nat × Nat :=
  if month = 1 then (year - 1, 12) else (year, month - 1)

/-- Spec-side definition (refinement comparison): the `YYYY-MM` label of a
`(year, month)` pair. -/
def specMonthLabel (p : Nat × Nat) : List Char := natChars p.1 ++ '-' :: pad2 p.2

/-! ## Lemmas and claim theorems -/

/-- C1: the claim says every transport failure yields a `NetworkError`
failure outcome and never an uncaught exception.  The `except` clause
`except HTTPError or RequestException` evaluates the `or` expression to the
single class `HTTPError`, so an `HTTPError` is caught and turned into the
failure return, but any other `RequestException` (a transport failure such as
a connection error) escapes the method uncaught.  This theorem evaluates the
acquirer at both inputs, exhibiting the divergence. -/
theorem c1_page_acquirer_transport_error_uncaught :
    _get_page_source (GetResult.raises PyExc.httpError) = Except.ok (false, none) ∧
    _get_page_source (GetResult.raises PyExc.connectionError) =
      Except.error PyExc.connectionError :=
  ⟨rfl, rfl⟩

/-- C2: the claim (and the spec's §9 open question) require an explicit
`NoDataAvailable` outcome on an empty observation sequence; the code instead
evaluates `values[len(values) - 1]`, i.e. `values[-1]`, which on an empty
list raises an uncaught `IndexError`. -/
theorem c2_rate_extractor_empty_index_error :
    _get_latest_ecb_rate [] = EcbResult.indexError := by
  decide

/-- C8: on a non-empty observation sequence the extractor returns the last
element of the sequence (no date comparison, no maximum). -/
theorem c8_latest_rate_last_element (v : List ℚ) (h : v ≠ []) :
    _get_latest_ecb_rate v = EcbResult.ok (v.getLast h) := by
  have hl : 0 < v.length := List.length_pos.mpr h
  have hneg : ¬((v.length : Int) - 1 < 0) := by omega
  have hidx : ((v.length : Int) - 1).toNat = v.length - 1 := by omega
  unfold _get_latest_ecb_rate pyIndex
  simp only [if_neg hneg]
  rw [dif_pos (by constructor <;> omega)]
  simp only [List.get_eq_getElem, hidx, List.getLast_eq_getElem]

/-- C8 witness: `[0.85, 0.86, 0.84]` yields `0.84`, the last element. -/
theorem c8_latest_rate_last_element_witness :
    _get_latest_ecb_rate [(85 : ℚ)/100, 86/100, 84/100] = EcbResult.ok ((84 : ℚ)/100) := by
  rw [c8_latest_rate_last_element [(85 : ℚ)/100, 86/100, 84/100] (by decide)]
  norm_num

/-- C9: `_last_month` returns the `YYYY-MM` label of the calendar month
before the current one, wrapping January of year `Y` to `(Y-1)-12`. -/
theorem c9_previous_month_label (y m : Nat) (h1 : 1 ≤ m) (h2 : m ≤ 12) :
    _last_month y m = specMonthLabel (specPrevMonth y m) := by
  unfold _last_month specPrevMonth specMonthLabel
  by_cases hm : m = 1
  · subst hm
    norm_num [pad2]
    decide
  · rw [if_pos (by omega), if_neg hm]

/-- C9 witness: January 2019 gives `"2018-12"`. -/
theorem c9_previous_month_label_witness :
    _last_month 2019 1 = specMonthLabel (specPrevMonth 2019 1) ∧
    _last_month 2019 1 = "2018-12".toList :=
  ⟨c9_previous_month_label 2019 1 (by decide) (by decide), by decide⟩

/-- C10: a 2xx response with no content-type header at all makes
`response.headers['content-type']` raise an uncaught `KeyError`: the
content-type gate is total only when the header is present. -/
theorem c10_missing_content_type_key_error (r : HttpResponse)
    (h2 : 200 ≤ r.status) (h3 : r.status < 300)
    (hh : headerLookup r.headers "content-type".toList = none) :
    _get_page_source (GetResult.ok r) = Except.error PyExc.keyError := by
  have hcond : ¬(400 ≤ r.status ∧ r.status < 600) := by omega
  have hh2 : headerLookup r.headers
      ['c', 'o', 'n', 't', 'e', 'n', 't', '-', 't', 'y', 'p', 'e'] = none := hh
  simp [_get_page_source, fetchTryBlock, hcond, hh2]

/-- C10 witness: a bare 200 response with no headers crashes with `KeyError`. -/
theorem c10_missing_content_type_key_error_witness :
    _get_page_source (GetResult.ok ⟨200, [], []⟩) = Except.error PyExc.keyError :=
  c10_missing_content_type_key_error ⟨200, [], []⟩ (by decide) (by decide) rfl

/-- The xpath composition `./head/title` agrees with the claim-side list of
title elements that are direct children of head children of the root. -/
theorem xpathChild_head_title (root : HNode) :
    xpathChild "title".toList (xpathChild "head".toList [root]) = headTitleList root := by
  simp [xpathChild, headTitleList]

/-- C7: the extracted title is the text of the first `title` element that is
a direct child of `head`, and the empty string when no such element exists. -/
theorem c7_title_first_head_child (root : HNode) :
    (headTitleList root = [] → (_parse_page_source root).title = []) ∧
    (∀ t ts, headTitleList root = t :: ts → (_parse_page_source root).title = t.text) := by
  constructor
  · intro h
    unfold _parse_page_source
    rw [xpathChild_head_title, h]
  · intro t ts h
    unfold _parse_page_source
    rw [xpathChild_head_title, h]

/-- Setting the element just past a prefix rewrites the head of the suffix. -/
theorem set_append_len {α : Type} (A B : List α) (x : α) :
    (A ++ B).set A.length x = A ++ B.set 0 x := by
  induction A with
  | nil => rfl
  | cons a A ih => simp [List.set, ih]

/-- Variant of `set_append_len` with the index given through an equation. -/
theorem set_append_idx {α : Type} (A B : List α) (n : Nat) (h : A.length = n) (x : α) :
    (A ++ B).set n x = A ++ B.set 0 x := by
  subst h
  exact set_append_len A B x

/-- The in-place loop of `_ensure_img_abs_urls` is the elementwise map of
`singleNorm`. -/
theorem ensure_map (url : List Char) (imgs : List (List Char)) :
    ensureImgAbsUrls url imgs = imgs.map (singleNorm url) := by
  have key : ∀ n, n ≤ imgs.length →
      (List.range n).foldl
        (fun acc i =>
          if (urlsplit (acc.getD i [])).scheme ≠ [] ∧ (urlsplit (acc.getD i [])).netloc ≠ [] then
            acc
          else acc.set i (urljoin url (acc.getD i []))) imgs =
      (imgs.take n).map (singleNorm url) ++ imgs.drop n := by
    intro n
    induction n with
    | zero => intro _; simp
    | succ n ih =>
      intro hn
      have hlt : n < imgs.length := by omega
      rw [List.range_succ, List.foldl_append, ih (by omega)]
      have hAlen : ((imgs.take n).map (singleNorm url)).length = n := by
        simp [List.length_take]
        omega
      have hdrop : imgs.drop n = imgs[n] :: imgs.drop (n + 1) :=
        List.drop_eq_getElem_cons hlt
      have hgetD :
          ((imgs.take n).map (singleNorm url) ++ imgs.drop n).getD n [] = imgs[n] := by
        rw [hdrop, List.getD_eq_getElem?_getD,
          List.getElem?_append_right (by omega), hAlen]
        simp [List.getElem?_eq_getElem hlt]
      have htake : imgs.take (n + 1) = imgs.take n ++ [imgs[n]] := by
        rw [List.take_succ, List.getElem?_eq_getElem hlt]
        rfl
      have hset : ∀ x, ((imgs.take n).map (singleNorm url) ++ imgs.drop n).set n x =
          (imgs.take n).map (singleNorm url) ++ x :: imgs.drop (n + 1) := by
        intro x
        rw [set_append_idx _ _ n hAlen, hdrop]
        rfl
      simp only [List.foldl_cons, List.foldl_nil, hgetD, htake, List.map_append,
        List.map_cons, List.map_nil, hset]
      by_cases hc : (urlsplit imgs[n]).scheme ≠ [] ∧ (urlsplit imgs[n]).netloc ≠ []
      · rw [if_pos hc, hdrop]
        have : singleNorm url imgs[n] = imgs[n] := by rw [singleNorm, if_pos hc]
        rw [this]
        simp
      · rw [if_neg hc]
        have : singleNorm url imgs[n] = urljoin url imgs[n] := by
          rw [singleNorm, if_neg hc]
        rw [this]
        simp
  unfold ensureImgAbsUrls
  rw [key imgs.length le_rfl, List.take_length, List.drop_length, List.append_nil]

/-- C3 counterexample: a protocol-relative reference has a network location,
so the claim says it passes through unchanged; the loop resolves it against
the base (its condition fires whenever scheme *or* netloc is missing). -/
theorem c3_normalizer_counterexample :
    (urlsplit "//cdn.example.com/a.png".toList).netloc ≠ [] ∧
    ensureImgAbsUrls "https://example.com".toList ["//cdn.example.com/a.png".toList] ≠
      ["//cdn.example.com/a.png".toList] := by
  constructor
  · decide
  · decide

/-- C3 (amended): the normalizer resolves exactly those references lacking a
scheme or lacking a network location; references with both pass through
unchanged, in place, preserving order. -/
theorem c3_normalizer_resolves_lacking_scheme_or_netloc
    (url : List Char) (imgs : List (List Char)) :
    ensureImgAbsUrls url imgs =
      imgs.map (fun s =>
        if (urlsplit s).scheme ≠ [] ∧ (urlsplit s).netloc ≠ [] then s
        else urljoin url s) := by
  rw [ensure_map]
  rfl

/-- C7 witness: a concrete document whose head has a title `"Example"`. -/
theorem c7_title_first_head_child_witness :
    (_parse_page_source
      (HNode.elem "html".toList [] []
        [HNode.elem "head".toList [] []
          [HNode.elem "title".toList [] "Example".toList []],
         HNode.elem "body".toList [] [] []])).title = "Example".toList :=
  (c7_title_first_head_child _).2
    (HNode.elem "title".toList [] "Example".toList []) [] rfl


theorem mem_takeWhile_pred {p : Char → Bool} : ∀ {l : List Char} {x : Char},
    x ∈ l.takeWhile p → p x = true := by
  intro l
  induction l with
  | nil => intro x hx; simp [List.takeWhile] at hx
  | cons a l ih =>
    intro x hx
    rw [List.takeWhile_cons] at hx
    by_cases hp : p a
    · rw [if_pos hp] at hx
      rcases List.mem_cons.mp hx with h | h
      · rwa [h]
      · exact ih h
    · rw [if_neg hp] at hx
      simp at hx

theorem takeWhile_append_all {p : Char → Bool} : ∀ (a b : List Char), a.all p →
    (a ++ b).takeWhile p = a ++ b.takeWhile p := by
  intro a
  induction a with
  | nil => intro b _; rfl
  | cons x a ih =>
    intro b h
    rw [List.all_cons, Bool.and_eq_true] at h
    rw [List.cons_append, List.takeWhile_cons, if_pos h.1, ih b h.2]
    rfl

theorem splitScheme_eq (pre rest d : List Char)
    (h1 : ∀ c ∈ pre, ¬(c = ':')) (h2 : pre ≠ [])
    (h3 : pyIsAlpha (pre.headD ' ') = true)
    (h4 : pre.all schemeChar = true) :
    splitScheme (pre ++ ':' :: rest) d = (pre.map toLowerChar, rest) := by
  have hall : pre.all (fun c => !decide (c = ':')) = true := by
    rw [List.all_eq_true]
    intro c hc
    simp [h1 c hc]
  have htw : (pre ++ ':' :: rest).takeWhile (fun c => !decide (c = ':')) = pre := by
    rw [takeWhile_append_all _ _ hall, List.takeWhile_cons]
    simp
  have hok : schemeOkPre (pre ++ ':' :: rest) = true := by
    unfold schemeOkPre
    rw [htw]
    obtain ⟨c, pre', rfl⟩ : ∃ c pre', pre = c :: pre' := by
      cases pre with
      | nil => exact absurd rfl h2
      | cons c pre' => exact ⟨c, pre', rfl⟩
    simp only [List.headD_cons] at h3
    simp [h3, h4, List.length_append]
  unfold splitScheme
  rw [if_pos hok, htw]
  congr 1
  have : pre ++ ':' :: rest = (pre ++ [':']) ++ rest := by simp
  rw [this]
  rw [show pre.length + 1 = (pre ++ [':']).length by simp]
  exact List.drop_left _ _

theorem urlunparse_shape (scheme netloc path params query fragment : List Char)
    (hn : netloc ≠ []) (hs : scheme ≠ []) :
    ∃ T, urlunparse scheme netloc path params query fragment =
      scheme ++ ':' :: '/' :: '/' :: (netloc ++ T) := by
  simp only [urlunparse, urlunsplit]
  rw [if_pos (Or.inl hn), if_pos hs]
  split_ifs with h1 h2 h3
  · exact ⟨forceSlash (withParams path params) ++ '?' :: query ++ '#' :: fragment,
      by simp [List.append_assoc]⟩
  · exact ⟨forceSlash (withParams path params) ++ '#' :: fragment,
      by simp [List.append_assoc]⟩
  · exact ⟨forceSlash (withParams path params) ++ '?' :: query,
      by simp [List.append_assoc]⟩
  · exact ⟨forceSlash (withParams path params), by simp [List.append_assoc]⟩

theorem urlsplit_of_shape (scheme netloc T : List Char)
    (hs : scheme = "http".toList ∨ scheme = "https".toList)
    (hn : netloc ≠ []) (hchars : ∀ c ∈ netloc, noSplitChar c = true) :
    (urlsplit (scheme ++ ':' :: '/' :: '/' :: (netloc ++ T))).scheme = scheme ∧
    (urlsplit (scheme ++ ':' :: '/' :: '/' :: (netloc ++ T))).netloc ≠ [] := by
  obtain ⟨n, ns, rfl⟩ : ∃ n ns, netloc = n :: ns := by
    cases netloc with
    | nil => exact absurd rfl hn
    | cons n ns => exact ⟨n, ns, rfl⟩
  have hsplit : splitScheme (scheme ++ ':' :: '/' :: '/' :: ((n :: ns) ++ T)) [] =
      (scheme.map toLowerChar, '/' :: '/' :: ((n :: ns) ++ T)) := by
    apply splitScheme_eq
    · rcases hs with h | h <;> subst h <;> decide
    · rcases hs with h | h <;> subst h <;> decide
    · rcases hs with h | h <;> subst h <;> decide
    · rcases hs with h | h <;> subst h <;> decide
  constructor
  · show schemeOf _ [] = scheme
    unfold schemeOf
    rw [hsplit]
    rcases hs with h | h <;> subst h <;> rfl
  · show netlocOf _ [] ≠ []
    unfold netlocOf afterScheme
    rw [hsplit]
    show (List.takeWhile noSplitChar (n :: (ns ++ T))) ≠ []
    rw [List.takeWhile_cons, if_pos (hchars n (List.mem_cons_self n ns))]
    exact List.cons_ne_nil _ _

theorem splitNetloc_chars (s : List Char) : ∀ c ∈ (splitNetloc s).1, noSplitChar c = true := by
  unfold splitNetloc
  split
  · intro c hc
    exact mem_takeWhile_pred hc
  · intro c hc
    simp at hc

theorem afterScheme_d (u d : List Char) : afterScheme u d = afterScheme u [] := by
  unfold afterScheme splitScheme
  split <;> rfl

theorem urlparseD_scheme (u d : List Char) :
    (urlparseD u d).scheme = (urlsplitD u d).scheme := by
  unfold urlparseD
  split <;> rfl

theorem urlparseD_netloc (u d : List Char) :
    (urlparseD u d).netloc = (urlsplitD u d).netloc := by
  unfold urlparseD
  split <;> rfl

theorem schemeOf_d (u d : List Char) :
    schemeOf u d = if schemeOf u [] = [] then d else schemeOf u [] := by
  unfold schemeOf splitScheme
  by_cases h : schemeOkPre u = true
  · rw [if_pos h, if_pos h]
    have hh := h
    unfold schemeOkPre at hh
    rw [Bool.and_eq_true, Bool.and_eq_true, Bool.and_eq_true] at hh
    have hlen : 0 < (u.takeWhile fun c => !decide (c = ':')).length :=
      of_decide_eq_true hh.1.1.2
    have hne : ((u.takeWhile fun c => !decide (c = ':')).map toLowerChar) ≠ [] := by
      intro hmap
      have hlm := congrArg List.length hmap
      rw [List.length_map] at hlm
      simp only [List.length_nil] at hlm
      omega
    rw [if_neg hne]
  · rw [if_neg h, if_neg h]
    simp

theorem urljoin_shape (base url : List Char)
    (hbs : (urlsplit base).scheme = "http".toList ∨ (urlsplit base).scheme = "https".toList)
    (hbn : (urlsplit base).netloc ≠ []) :
    (urljoin base url = url ∧ (urlsplit url).scheme ≠ [] ∧
      (urlsplit url).scheme ≠ (urlsplit base).scheme) ∨
    ((urlsplit (urljoin base url)).scheme ≠ [] ∧ (urlsplit (urljoin base url)).netloc ≠ []) := by
  have hbase_ne : base ≠ [] := by
    intro h
    subst h
    have : (urlsplit ([] : List Char)).scheme = [] := rfl
    rcases hbs with h2 | h2 <;> rw [this] at h2 <;> exact absurd h2 (by decide)
  by_cases hurl : url = []
  · subst hurl
    right
    have hjb : urljoin base [] = base := by
      unfold urljoin
      rw [if_neg hbase_ne]
      simp
    rw [hjb]
    refine ⟨?_, hbn⟩
    rcases hbs with h | h <;> rw [h] <;> decide
  · simp only [urljoin, if_neg hbase_ne, if_neg hurl]
    set b := urlparseD base [] with hb
    set r := urlparseD url b.scheme with hr
    have hbscheme : b.scheme = (urlsplit base).scheme := by
      rw [hb]
      exact urlparseD_scheme base []
    have hbnetloc : b.netloc = (urlsplit base).netloc := by
      rw [hb]
      exact urlparseD_netloc base []
    simp only [urljoinParsed]
    by_cases hmis : r.scheme ≠ b.scheme ∨ r.scheme ∉ uses_relative
    · rw [if_pos hmis]
      left
      have hne : r.scheme ≠ b.scheme := by
        rcases hmis with h | h
        · exact h
        · intro heq
          apply h
          rw [heq, hbscheme]
          rcases hbs with h2 | h2 <;> rw [h2] <;> decide
      have hrs : r.scheme = if schemeOf url [] = [] then b.scheme else schemeOf url [] := by
        rw [hr, urlparseD_scheme]
        exact schemeOf_d url b.scheme
      by_cases hownnil : schemeOf url [] = []
      · rw [hownnil, if_pos rfl] at hrs
        exact absurd hrs hne
      · rw [if_neg hownnil] at hrs
        refine ⟨rfl, hownnil, ?_⟩
        rw [← hbscheme]
        show schemeOf url [] ≠ b.scheme
        rw [← hrs]
        exact hne
    · rw [if_neg hmis]
      right
      push_neg at hmis
      obtain ⟨heq, hrel⟩ := hmis
      have hrs2 : r.scheme = "http".toList ∨ r.scheme = "https".toList := by
        rw [heq, hbscheme]
        exact hbs
      have hsne : r.scheme ≠ [] := by
        rcases hrs2 with h | h <;> rw [h] <;> decide
      have huse : r.scheme ∈ uses_netloc := by
        rcases hrs2 with h | h <;> rw [h] <;> decide
      by_cases hnl : r.netloc ≠ []
      · rw [if_pos ⟨huse, hnl⟩]
        have hch : ∀ c ∈ r.netloc, noSplitChar c = true := by
          rw [hr, urlparseD_netloc]
          exact splitNetloc_chars _
        obtain ⟨T, hT⟩ :=
          urlunparse_shape r.scheme r.netloc r.path r.params r.query r.fragment hnl hsne
        rw [hT]
        have hres := urlsplit_of_shape r.scheme r.netloc T hrs2 hnl hch
        refine ⟨?_, hres.2⟩
        rw [hres.1]
        exact hsne
      · rw [if_neg (fun hcon => hnl hcon.2)]
        have hbn' : b.netloc ≠ [] := by
          rw [hbnetloc]
          exact hbn
        have hbch : ∀ c ∈ b.netloc, noSplitChar c = true := by
          rw [hb, urlparseD_netloc]
          exact splitNetloc_chars _
        have main : ∀ P PR Q F,
            (urlsplit (urlunparse r.scheme b.netloc P PR Q F)).scheme ≠ [] ∧
            (urlsplit (urlunparse r.scheme b.netloc P PR Q F)).netloc ≠ [] := by
          intro P PR Q F
          obtain ⟨T, hT⟩ := urlunparse_shape r.scheme b.netloc P PR Q F hbn' hsne
          rw [hT]
          have hres := urlsplit_of_shape r.scheme b.netloc T hrs2 hbn' hbch
          refine ⟨?_, hres.2⟩
          rw [hres.1]
          exact hsne
        simp only [joinStep, if_pos huse]
        split_ifs with hcase hq <;> exact main _ _ _ _

/-- One pass of the loop body is idempotent per element (for a base with an
http/https scheme and a host, i.e. a `ValidatedURL`). -/
theorem singleNorm_idem (base : List Char)
    (hbs : (urlsplit base).scheme = "http".toList ∨ (urlsplit base).scheme = "https".toList)
    (hbn : (urlsplit base).netloc ≠ []) (s : List Char) :
    singleNorm base (singleNorm base s) = singleNorm base s := by
  by_cases hc : (urlsplit s).scheme ≠ [] ∧ (urlsplit s).netloc ≠ []
  · have hs1 : singleNorm base s = s := by rw [singleNorm, if_pos hc]
    rw [hs1, hs1]
  · have hs1 : singleNorm base s = urljoin base s := by rw [singleNorm, if_neg hc]
    rw [hs1]
    rcases urljoin_shape base s hbs hbn with ⟨hid, _, _⟩ | ⟨h1, h2⟩
    · rw [hid, hs1]
      exact hid
    · rw [singleNorm, if_pos ⟨h1, h2⟩]

/-- C4: on a validated base URL (scheme `http`/`https`, non-empty host) the
normalizer is idempotent, and it is the in-place elementwise map of
`singleNorm` (so order is preserved). -/
theorem c4_normalizer_idempotent (base : List Char)
    (hbs : (urlsplit base).scheme = "http".toList ∨ (urlsplit base).scheme = "https".toList)
    (hbn : (urlsplit base).netloc ≠ []) (imgs : List (List Char)) :
    ensureImgAbsUrls base (ensureImgAbsUrls base imgs) = ensureImgAbsUrls base imgs ∧
    ensureImgAbsUrls base imgs = imgs.map (singleNorm base) := by
  refine ⟨?_, ensure_map base imgs⟩
  rw [ensure_map base imgs, ensure_map base (imgs.map (singleNorm base)), List.map_map]
  apply List.map_congr_left
  intro s _
  exact singleNorm_idem base hbs hbn s

/-- C4 witness: a concrete validated base and a relative image reference. -/
theorem c4_normalizer_idempotent_witness :
    ensureImgAbsUrls "https://example.com".toList
        (ensureImgAbsUrls "https://example.com".toList ["img/a.png".toList]) =
      ensureImgAbsUrls "https://example.com".toList ["img/a.png".toList] ∧
    ensureImgAbsUrls "https://example.com".toList ["img/a.png".toList] =
      ["img/a.png".toList].map (singleNorm "https://example.com".toList) :=
  c4_normalizer_idempotent "https://example.com".toList (by decide) (by decide)
    ["img/a.png".toList]

/-- C5 counterexample: a `data:` image reference is left unchanged by the
normalizer (its scheme is foreign), so the output sequence contains a
reference with no network location — not every output is absolute. -/
theorem c5_invariant_counterexample :
    ensureImgAbsUrls "https://example.com".toList ["data:image/png;base64,x".toList] =
      ["data:image/png;base64,x".toList] ∧
    (urlsplit "data:image/png;base64,x".toList).netloc = [] := by
  constructor
  · decide
  · decide

/-- C5 (amended): after normalizing against a validated base, every image
reference in the output either is absolute (has both scheme and host) or is
an input reference passed through unchanged carrying its own scheme different
from the base's. -/
theorem c5_normalized_abs_or_foreign_scheme (base : List Char)
    (hbs : (urlsplit base).scheme = "http".toList ∨ (urlsplit base).scheme = "https".toList)
    (hbn : (urlsplit base).netloc ≠ []) (imgs : List (List Char)) (s : List Char)
    (hmem : s ∈ ensureImgAbsUrls base imgs) :
    ((urlsplit s).scheme ≠ [] ∧ (urlsplit s).netloc ≠ []) ∨
    (s ∈ imgs ∧ (urlsplit s).scheme ≠ [] ∧ (urlsplit s).scheme ≠ (urlsplit base).scheme) := by
  rw [ensure_map] at hmem
  obtain ⟨t, htmem, rfl⟩ := List.mem_map.mp hmem
  by_cases hc : (urlsplit t).scheme ≠ [] ∧ (urlsplit t).netloc ≠ []
  · left
    have hs1 : singleNorm base t = t := by rw [singleNorm, if_pos hc]
    rw [hs1]
    exact hc
  · have hs1 : singleNorm base t = urljoin base t := by rw [singleNorm, if_neg hc]
    rw [hs1]
    rcases urljoin_shape base t hbs hbn with ⟨hid, h2, h3⟩ | ⟨h1, h2⟩
    · right
      rw [hid]
      exact ⟨htmem, h2, h3⟩
    · left
      exact ⟨h1, h2⟩

/-- C5 witness: the `data:` reference from the counterexample falls into the
pass-through disjunct of the amended claim. -/
theorem c5_normalized_abs_or_foreign_scheme_witness :
    ((urlsplit "data:image/png;base64,x".toList).scheme ≠ [] ∧
      (urlsplit "data:image/png;base64,x".toList).netloc ≠ []) ∨
    ("data:image/png;base64,x".toList ∈ ["data:image/png;base64,x".toList] ∧
      (urlsplit "data:image/png;base64,x".toList).scheme ≠ [] ∧
      (urlsplit "data:image/png;base64,x".toList).scheme ≠
        (urlsplit "https://example.com".toList).scheme) :=
  c5_normalized_abs_or_foreign_scheme "https://example.com".toList (by decide) (by decide)
    ["data:image/png;base64,x".toList] "data:image/png;base64,x".toList (by decide)

/-- A host character (alphanumeric, dash or dot) is none of the structural
characters the pattern's later parts could match. -/
theorem hostChar_facts (c : Char)
    (h : (pyIsAlnum c || decide (c = '-') || decide (c = '.')) = true) :
    c ≠ ':' ∧ c ≠ '/' ∧ c ≠ '?' ∧ c ≠ '\n' ∧ c ≠ '@' ∧ pyIsSpace c = false := by
  refine ⟨?_, ?_, ?_, ?_, ?_, ?_⟩
  · intro he; subst he; exact absurd h (by decide)
  · intro he; subst he; exact absurd h (by decide)
  · intro he; subst he; exact absurd h (by decide)
  · intro he; subst he; exact absurd h (by decide)
  · intro he; subst he; exact absurd h (by decide)
  · by_contra hsp
    rw [Bool.not_eq_false] at hsp
    unfold pyIsSpace at hsp
    simp only [Bool.or_eq_true, decide_eq_true_eq] at hsp
    rcases hsp with ((((h1 | h1) | h1) | h1) | h1) | h1 <;> subst h1 <;>
      exact absurd h (by decide)

theorem dropWhile_eq_drop (p : Char → Bool) : ∀ l : List Char,
    l.dropWhile p = l.drop (l.takeWhile p).length := by
  intro l
  induction l with
  | nil => rfl
  | cons a l ih =>
    rw [List.dropWhile_cons, List.takeWhile_cons]
    by_cases hp : p a = true
    · rw [if_pos hp, if_pos hp]
      simpa using ih
    · rw [if_neg hp, if_neg (by simpa using hp)]
      rfl

theorem head_dropWhile (p : Char → Bool) : ∀ (l : List Char) (x : Char) (xs : List Char),
    l.dropWhile p = x :: xs → p x = false := by
  intro l
  induction l with
  | nil => intro x xs h; simp [List.dropWhile] at h
  | cons a l ih =>
    intro x xs h
    rw [List.dropWhile_cons] at h
    by_cases hp : p a = true
    · rw [if_pos hp] at h
      exact ih x xs h
    · rw [if_neg hp] at h
      cases h
      simpa using hp

theorem dropWhile_ne_nil (p : Char → Bool) (l : List Char) (h : ¬ l.all p = true) :
    l.dropWhile p ≠ [] := by
  intro hnil
  apply h
  rw [List.all_eq_true]
  intro c hc
  have hsplit := List.takeWhile_append_dropWhile (p := p) (l := l)
  rw [hnil, List.append_nil] at hsplit
  rw [← hsplit] at hc
  exact mem_takeWhile_pred hc

/-- The port/trailing part can never start with a host character. -/
theorem matchPortTail_cons_false (c : Char) (r : List Char)
    (h1 : c ≠ ':') (h2 : c ≠ '/') (h3 : c ≠ '?') (h4 : c ≠ '\n') :
    matchPortTail (c :: r) = false := by
  unfold matchPortTail matchTailEnd pyEndDollar
  simp only [if_neg h1, if_neg h2, if_neg h3]
  have hne : ¬(c :: r = ['\n']) := by
    intro he
    cases he
    exact h4 rfl
  simp [hne]

/-- The username part must be followed by `:`, which does not occur in a
dash-and-dot host. -/
theorem matchAuthThen_noColon (s : List Char) (h : ∀ c ∈ s, c ≠ ':') :
    matchAuthThen s = false := by
  unfold matchAuthThen
  have hc : ¬((s.drop (s.takeWhile pyIsWord).length).take 1 = [':']) := by
    intro heq
    have : ':' ∈ (s.drop (s.takeWhile pyIsWord).length).take 1 := by
      rw [heq]
      exact List.mem_singleton.mpr rfl
    have := List.drop_subset _ s (List.take_subset _ _ this)
    exact h ':' this rfl
  rw [decide_eq_false hc]
  simp

theorem takeWhile_append_stop {p : Char → Bool} (a : List Char) (x : Char) (r : List Char)
    (ha : a.all p = true) (hx : p x = false) :
    (a ++ x :: r).takeWhile p = a := by
  rw [takeWhile_append_all a (x :: r) ha, List.takeWhile_cons, if_neg (by simp [hx])]
  simp

theorem takeWhile_all_self {p : Char → Bool} (l : List Char) (h : l.all p = true) :
    l.takeWhile p = l := by
  have := takeWhile_append_all l [] h
  simpa using this

theorem takeWhile_append_not_all {p : Char → Bool} : ∀ (a b : List Char),
    ¬ a.all p = true → (a ++ b).takeWhile p = a.takeWhile p := by
  intro a
  induction a with
  | nil => intro b h; exact absurd rfl h
  | cons x a ih =>
    intro b h
    rw [List.cons_append, List.takeWhile_cons, List.takeWhile_cons]
    by_cases hp : p x = true
    · rw [if_pos hp, if_pos hp]
      have : ¬ a.all p = true := by
        intro hall
        exact h (by simp [List.all_cons, hp, hall])
      rw [ih b this]
    · rw [if_neg hp, if_neg hp]

theorem dropWhile_append_not_all {p : Char → Bool} : ∀ (a b : List Char),
    ¬ a.all p = true → (a ++ b).dropWhile p = a.dropWhile p ++ b := by
  intro a
  induction a with
  | nil => intro b h; exact absurd rfl h
  | cons x a ih =>
    intro b h
    rw [List.cons_append, List.dropWhile_cons, List.dropWhile_cons]
    by_cases hp : p x = true
    · rw [if_pos hp, if_pos hp]
      have : ¬ a.all p = true := by
        intro hall
        exact h (by simp [List.all_cons, hp, hall])
      rw [ih b this]
    · rw [if_neg hp, if_neg hp]
      rfl

/-- A label chunk followed by a dot is consumed exactly. -/
theorem consumeChunk_eq (l r : List Char) (hchars : l.all isAlnumDash = true)
    (hok : labelOk l = true) :
    consumeChunk (l ++ '.' :: r) = some r := by
  have htw : (l ++ '.' :: r).takeWhile isAlnumDash = l :=
    takeWhile_append_stop l '.' r hchars (by decide)
  unfold consumeChunk
  rw [htw]
  have hdrop : (l ++ '.' :: r).drop l.length = '.' :: r := List.drop_left l ('.' :: r)
  rw [hdrop]
  rw [if_pos ⟨hok, rfl⟩]
  congr 1
  have h2 : l ++ '.' :: r = (l ++ ['.']) ++ r := by simp
  rw [h2, show l.length + 1 = (l ++ ['.']).length by simp]
  exact List.drop_left _ _

/-- A malformed label blocks the chunk. -/
theorem consumeChunk_bad (l r : List Char) (hchars : l.all isAlnumDash = true)
    (hok : labelOk l = false) :
    consumeChunk (l ++ '.' :: r) = none := by
  have htw : (l ++ '.' :: r).takeWhile isAlnumDash = l :=
    takeWhile_append_stop l '.' r hchars (by decide)
  unfold consumeChunk
  rw [htw]
  rw [if_neg (fun hcon => by rw [hok] at hcon; exact Bool.false_ne_true hcon.1)]

/-- The final dot-less run can never be consumed as a chunk. -/
theorem consumeChunk_last (l : List Char) (hchars : l.all isAlnumDash = true) :
    consumeChunk l = none := by
  have htw : l.takeWhile isAlnumDash = l := takeWhile_all_self l hchars
  unfold consumeChunk
  rw [htw, List.drop_length]
  rw [if_neg (fun hcon => by simpa using hcon.2)]

theorem mem_of_getLastOpt : ∀ (l : List Char) (x : Char), l.getLast? = some x → x ∈ l := by
  intro l
  induction l with
  | nil => intro x h; simp at h
  | cons a l ih =>
    intro x h
    cases l with
    | nil =>
      rw [List.getLast?_singleton] at h
      cases h
      exact List.mem_singleton.mpr rfl
    | cons b t =>
      rw [List.getLast?_cons_cons] at h
      exact List.mem_cons_of_mem a (ih x h)

/-- The top-level-label alternative cannot fire on a dotted position. -/
theorem tld_mid_false (l r : List Char) (hchars : l.all isAlnumDash = true) :
    tldTail (l ++ '.' :: r) = false := by
  by_cases hall : l.all pyIsAlnum = true
  · have htw : (l ++ '.' :: r).takeWhile pyIsAlnum = l :=
      takeWhile_append_stop l '.' r hall (by decide)
    unfold tldTail
    rw [htw, List.drop_left l ('.' :: r)]
    rw [matchPortTail_cons_false '.' r (by decide) (by decide) (by decide) (by decide)]
    simp
  · have htw : (l ++ '.' :: r).takeWhile pyIsAlnum = l.takeWhile pyIsAlnum :=
      takeWhile_append_not_all l ('.' :: r) hall
    unfold tldTail
    rw [htw]
    have hdrop : (l ++ '.' :: r).drop (l.takeWhile pyIsAlnum).length =
        l.dropWhile pyIsAlnum ++ '.' :: r := by
      rw [← htw, ← dropWhile_eq_drop, dropWhile_append_not_all l ('.' :: r) hall]
    rw [hdrop]
    obtain ⟨d, q, hdq⟩ : ∃ d q, l.dropWhile pyIsAlnum = d :: q := by
      rcases hx : l.dropWhile pyIsAlnum with _ | ⟨d, q⟩
      · exact absurd hx (dropWhile_ne_nil _ _ hall)
      · exact ⟨d, q, rfl⟩
    rw [hdq]
    have hdmem : d ∈ l := by
      have hmem : d ∈ l.dropWhile pyIsAlnum := by
        rw [hdq]
        exact List.mem_cons_self d q
      exact (List.dropWhile_sublist pyIsAlnum).subset hmem
    have hdp : pyIsAlnum d = false := head_dropWhile _ _ _ _ hdq
    have hdash : d = '-' := by
      have hh := List.all_eq_true.mp hchars d hdmem
      unfold isAlnumDash at hh
      rw [hdp] at hh
      simpa using hh
    subst hdash
    rw [List.cons_append]
    rw [matchPortTail_cons_false '-' _ (by decide) (by decide) (by decide) (by decide)]
    simp

/-- A label with a leading or trailing dash can also not serve as the
top-level label. -/
theorem tld_bad_false (l : List Char) (hchars : l.all isAlnumDash = true)
    (hbad : l.head? = some '-' ∨ l.getLast? = some '-') :
    tldTail l = false := by
  by_cases hall : l.all pyIsAlnum = true
  · rcases hbad with h | h
    · rcases l with _ | ⟨c, l'⟩
      · simp at h
      · rw [List.head?_cons] at h
        cases h
        have := List.all_eq_true.mp hall '-' (List.mem_cons_self _ _)
        exact absurd this (by decide)
    · have hmem : '-' ∈ l := by
        rcases l with _ | ⟨c, l'⟩
        · simp at h
        · exact mem_of_getLastOpt _ _ h
      have := List.all_eq_true.mp hall '-' hmem
      exact absurd this (by decide)
  · unfold tldTail
    rw [← dropWhile_eq_drop]
    obtain ⟨d, q, hdq⟩ : ∃ d q, l.dropWhile pyIsAlnum = d :: q := by
      rcases hx : l.dropWhile pyIsAlnum with _ | ⟨d, q⟩
      · exact absurd hx (dropWhile_ne_nil _ _ hall)
      · exact ⟨d, q, rfl⟩
    rw [hdq]
    have hdmem : d ∈ l := by
      have hmem : d ∈ l.dropWhile pyIsAlnum := by
        rw [hdq]
        exact List.mem_cons_self d q
      exact (List.dropWhile_sublist pyIsAlnum).subset hmem
    have hdp : pyIsAlnum d = false := head_dropWhile _ _ _ _ hdq
    have hdash : d = '-' := by
      have hh := List.all_eq_true.mp hchars d hdmem
      unfold isAlnumDash at hh
      rw [hdp] at hh
      simpa using hh
    subst hdash
    rw [matchPortTail_cons_false '-' _ (by decide) (by decide) (by decide) (by decide)]
    simp

theorem mem_joinDots : ∀ (ls : List (List Char)) (c : Char), c ∈ joinDots ls →
    (∃ l ∈ ls, c ∈ l) ∨ c = '.' := by
  intro ls
  induction ls with
  | nil => intro c hc; simp [joinDots] at hc
  | cons l ls ih =>
    intro c hc
    cases ls with
    | nil =>
      left
      exact ⟨l, List.mem_cons_self _ _, hc⟩
    | cons m ms =>
      rcases List.mem_append.mp hc with h | h
      · left
        exact ⟨l, List.mem_cons_self _ _, h⟩
      · rcases List.mem_cons.mp h with h2 | h2
        · right
          exact h2
        · rcases ih c h2 with ⟨l2, hl2, hcl2⟩ | h3
          · left
            exact ⟨l2, List.mem_cons_of_mem _ hl2, hcl2⟩
          · right
            exact h3

theorem mem_joinDots_of_mem : ∀ (ls : List (List Char)) (l : List Char) (c : Char),
    l ∈ ls → c ∈ l → c ∈ joinDots ls := by
  intro ls
  induction ls with
  | nil => intro l c hl _; simp at hl
  | cons m ms ih =>
    intro l c hl hc
    cases ms with
    | nil =>
      have : l = m := List.mem_singleton.mp hl
      subst this
      exact hc
    | cons x xs =>
      rcases List.mem_cons.mp hl with h | h
      · subst h
        exact List.mem_append.mpr (Or.inl hc)
      · exact List.mem_append.mpr (Or.inr (List.mem_cons_of_mem _ (ih l c h hc)))

theorem joinDots_cons (l : List Char) (ls : List (List Char)) (h : ls ≠ []) :
    joinDots (l :: ls) = l ++ '.' :: joinDots ls := by
  cases ls with
  | nil => exact absurd rfl h
  | cons m ms => rfl

theorem joinDots_length_ge : ∀ (ls : List (List Char)) (tld : List Char),
    ls.length ≤ (joinDots (ls ++ [tld])).length := by
  intro ls
  induction ls with
  | nil => intro tld; simp
  | cons l ls ih =>
    intro tld
    rw [List.cons_append, joinDots_cons l (ls ++ [tld]) (by simp)]
    simp only [List.length_append, List.length_cons]
    have := ih tld
    omega

theorem labelOk_bad_false (l : List Char) (hchars : l.all isAlnumDash = true)
    (hbad : l.head? = some '-' ∨ l.getLast? = some '-') :
    labelOk l = false := by
  match l with
  | [] => simp at hbad
  | [c] =>
    have hc : c = '-' := by
      rcases hbad with h | h
      · rw [List.head?_cons] at h
        exact Option.some.inj h
      · rw [List.getLast?_singleton] at h
        exact Option.some.inj h
    subst hc
    decide
  | c :: d :: t =>
    rcases hbad with h | h
    · rw [List.head?_cons] at h
      have hc : c = '-' := Option.some.inj h
      subst hc
      simp [labelOk, show pyIsAlnum '-' = false from by decide]
    · rw [List.getLast?_cons_cons] at h
      show (pyIsAlnum c && decide ((d :: t).length ≤ 62) &&
        (match (d :: t).getLast? with | some x => pyIsAlnum x | none => false) &&
        (d :: t).dropLast.all isAlnumDash) = false
      rw [h]
      simp [show pyIsAlnum '-' = false from by decide]

theorem labelOk_chars (l : List Char) (h : labelOk l = true) :
    l ≠ [] ∧ l.all isAlnumDash = true := by
  match l with
  | [] => exact absurd h (by decide)
  | [c] =>
    refine ⟨by simp, ?_⟩
    have hc : pyIsAlnum c = true := h
    simp [List.all_cons, isAlnumDash, hc]
  | c :: d :: t =>
    refine ⟨by simp, ?_⟩
    have hne : (d :: t) ≠ [] := by simp
    have h2 : (pyIsAlnum c && decide ((d :: t).length ≤ 62) &&
        (match (d :: t).getLast? with | some x => pyIsAlnum x | none => false) &&
        (d :: t).dropLast.all isAlnumDash) = true := h
    rw [List.getLast?_eq_getLast _ hne] at h2
    simp only [Bool.and_eq_true] at h2
    obtain ⟨⟨⟨h1, _⟩, h3⟩, h4⟩ := h2
    rw [List.all_cons, Bool.and_eq_true]
    refine ⟨by simp [isAlnumDash, h1], ?_⟩
    have hsplit := List.dropLast_append_getLast hne
    rw [← hsplit, List.all_append, Bool.and_eq_true]
    exact ⟨h4, by simp [isAlnumDash, h3]⟩

theorem hostCont_zero (s : List Char) : hostCont 0 s = tldTail s := rfl

theorem hostCont_succ (f : Nat) (s : List Char) :
    hostCont (f + 1) s =
      (tldTail s || (match consumeChunk s with
        | some r => hostCont f r
        | none => false)) := rfl

/-- With a dash-leading or dash-trailing label somewhere in the host, the
label/top-level host alternative fails at every continuation point. -/
theorem hostCont_reject : ∀ (ls : List (List Char)),
    (∀ l ∈ ls, l ≠ [] ∧ l.all isAlnumDash = true) →
    (∃ l ∈ ls, l.head? = some '-' ∨ l.getLast? = some '-') →
    ∀ fuel, hostCont fuel (joinDots ls) = false := by
  intro ls
  induction ls with
  | nil => intro _ hbad _; simp at hbad
  | cons l ls ih =>
    intro hgood hbad fuel
    have hch := (hgood l (List.mem_cons_self _ _)).2
    cases ls with
    | nil =>
      obtain ⟨lb, hlb, hbadl⟩ := hbad
      have hlbl : lb = l := List.mem_singleton.mp hlb
      subst hlbl
      have htld : tldTail (joinDots [lb]) = false := tld_bad_false lb hch hbadl
      have hchunk : consumeChunk (joinDots [lb]) = none := consumeChunk_last lb hch
      cases fuel with
      | zero => exact htld
      | succ f =>
        rw [hostCont_succ, htld, hchunk]
        rfl
    | cons m ms =>
      have hne : (m :: ms) ≠ [] := by simp
      rw [joinDots_cons l (m :: ms) hne]
      have htld : tldTail (l ++ '.' :: joinDots (m :: ms)) = false := tld_mid_false _ _ hch
      by_cases hok : labelOk l = true
      · have hbad2 : ∃ l2 ∈ (m :: ms), l2.head? = some '-' ∨ l2.getLast? = some '-' := by
          obtain ⟨lb, hlb, hbadl⟩ := hbad
          rcases List.mem_cons.mp hlb with h2 | h2
          · subst h2
            rw [labelOk_bad_false lb hch hbadl] at hok
            exact absurd hok (by simp)
          · exact ⟨lb, h2, hbadl⟩
        have hchunk := consumeChunk_eq l (joinDots (m :: ms)) hch hok
        cases fuel with
        | zero => exact htld
        | succ f =>
          rw [hostCont_succ, htld, hchunk]
          simp only [Bool.false_or]
          exact ih (fun l2 hl2 => hgood l2 (List.mem_cons_of_mem _ hl2)) hbad2 f
      · have hokf : labelOk l = false := by
          cases hx : labelOk l
          · rfl
          · exact absurd hx hok
        have hchunk := consumeChunk_bad l (joinDots (m :: ms)) hch hokf
        cases fuel with
        | zero => exact htld
        | succ f =>
          rw [hostCont_succ, htld, hchunk]
          rfl

theorem hostBody_reject (ls : List (List Char))
    (hgood : ∀ l ∈ ls, l ≠ [] ∧ l.all isAlnumDash = true)
    (hbad : ∃ l ∈ ls, l.head? = some '-' ∨ l.getLast? = some '-') :
    hostBody (joinDots ls) = false := by
  cases ls with
  | nil => simp at hbad
  | cons l ls =>
    have hch := (hgood l (List.mem_cons_self _ _)).2
    cases ls with
    | nil =>
      unfold hostBody
      rw [show joinDots [l] = l from rfl, consumeChunk_last l hch]
    | cons m ms =>
      have hne : (m :: ms) ≠ [] := by simp
      unfold hostBody
      rw [joinDots_cons l (m :: ms) hne]
      by_cases hok : labelOk l = true
      · have hbad2 : ∃ l2 ∈ (m :: ms), l2.head? = some '-' ∨ l2.getLast? = some '-' := by
          obtain ⟨lb, hlb, hbadl⟩ := hbad
          rcases List.mem_cons.mp hlb with h2 | h2
          · subst h2
            rw [labelOk_bad_false lb hch hbadl] at hok
            exact absurd hok (by simp)
          · exact ⟨lb, h2, hbadl⟩
        rw [consumeChunk_eq l (joinDots (m :: ms)) hch hok]
        exact hostCont_reject (m :: ms)
          (fun l2 hl2 => hgood l2 (List.mem_cons_of_mem _ hl2)) hbad2 _
      · have hokf : labelOk l = false := by
          cases hx : labelOk l
          · rfl
          · exact absurd hx hok
        rw [consumeChunk_bad l (joinDots (m :: ms)) hch hokf]

/-- The length lookahead succeeds on any all-non-whitespace input that fits
in the fuel (it reaches the end-of-input alternative). -/
theorem lookahead_nonspace : ∀ (fuel : Nat) (s : List Char), s.length ≤ fuel →
    (∀ c ∈ s, pyIsSpace c = false) → lookaheadOk fuel s = true := by
  intro fuel
  induction fuel with
  | zero =>
    intro s hl _
    have : s = [] := List.length_eq_zero.mp (Nat.le_zero.mp hl)
    subst this
    rfl
  | succ f ih =>
    intro s hl hns
    cases s with
    | nil => rfl
    | cons c r =>
      show (dollarOrColon (c :: r) || (!pyIsSpace c && lookaheadOk f r)) = true
      rw [hns c (List.mem_cons_self _ _)]
      rw [ih r (by simp at hl; omega) (fun x hx => hns x (List.mem_cons_of_mem _ hx))]
      simp

theorem tld_accept (tld : List Char) (h1 : tld.all pyIsAlnum = true)
    (h2 : 1 ≤ tld.length) (h3 : tld.length ≤ 63) : tldTail tld = true := by
  unfold tldTail
  rw [takeWhile_all_self tld h1, decide_eq_true h2, decide_eq_true h3, List.drop_length]
  rfl

theorem hostCont_accept : ∀ (front : List (List Char)) (tld : List Char) (fuel : Nat),
    front.length ≤ fuel → (∀ l ∈ front, labelOk l = true) →
    tld.all pyIsAlnum = true → 1 ≤ tld.length → tld.length ≤ 63 →
    hostCont fuel (joinDots (front ++ [tld])) = true := by
  intro front
  induction front with
  | nil =>
    intro tld fuel _ _ h1 h2 h3
    cases fuel with
    | zero => exact tld_accept tld h1 h2 h3
    | succ f =>
      rw [hostCont_succ, show joinDots ([] ++ [tld]) = tld from rfl,
        tld_accept tld h1 h2 h3]
      rfl
  | cons l front' ih =>
    intro tld fuel hfl hok h1 h2 h3
    have hne : (front' ++ [tld]) ≠ [] := by simp
    rw [List.cons_append, joinDots_cons l (front' ++ [tld]) hne]
    have hchl := labelOk_chars l (hok l (List.mem_cons_self _ _))
    cases fuel with
    | zero => simp at hfl
    | succ f =>
      rw [hostCont_succ,
        consumeChunk_eq l (joinDots (front' ++ [tld])) hchl.2 (hok l (List.mem_cons_self _ _))]
      have hrec := ih tld f (by simp at hfl; omega)
        (fun l2 hl2 => hok l2 (List.mem_cons_of_mem _ hl2)) h1 h2 h3
      rw [show (match some (joinDots (front' ++ [tld])) with
          | some r => hostCont f r
          | none => false) = hostCont f (joinDots (front' ++ [tld])) from rfl, hrec]
      simp

theorem hostBody_accept (front : List (List Char)) (tld : List Char)
    (hfe : front ≠ []) (hok : ∀ l ∈ front, labelOk l = true)
    (h1 : tld.all pyIsAlnum = true) (h2 : 1 ≤ tld.length) (h3 : tld.length ≤ 63) :
    hostBody (joinDots (front ++ [tld])) = true := by
  cases front with
  | nil => exact absurd rfl hfe
  | cons l front' =>
    have hne : (front' ++ [tld]) ≠ [] := by simp
    unfold hostBody
    rw [List.cons_append, joinDots_cons l (front' ++ [tld]) hne]
    have hchl := labelOk_chars l (hok l (List.mem_cons_self _ _))
    rw [consumeChunk_eq l (joinDots (front' ++ [tld])) hchl.2 (hok l (List.mem_cons_self _ _))]
    exact hostCont_accept front' tld (joinDots (front' ++ [tld])).length
      (joinDots_length_ge front' tld)
      (fun l2 hl2 => hok l2 (List.mem_cons_of_mem _ hl2)) h1 h2 h3

theorem matchLit_decomp : ∀ (lit s r : List Char), matchLit lit s = some r →
    ∃ pre, s = pre ++ r ∧ pre.length = lit.length ∧ ∀ c ∈ pre, toLowerChar c ∈ lit := by
  intro lit
  induction lit with
  | nil =>
    intro s r h
    have hsr : s = r := Option.some.inj h
    subst hsr
    exact ⟨[], by simp, rfl, by simp⟩
  | cons c cs ih =>
    intro s r h
    cases s with
    | nil => exact absurd h (by simp [matchLit])
    | cons x xs =>
      have h2 : (if toLowerChar x = c then matchLit cs xs else none) = some r := h
      by_cases hx : toLowerChar x = c
      · rw [if_pos hx] at h2
        obtain ⟨pre, hpre, hlen, hmem⟩ := ih xs r h2
        refine ⟨x :: pre, by rw [hpre]; rfl, by simp [hlen], ?_⟩
        intro e he
        rcases List.mem_cons.mp he with h3 | h3
        · subst h3
          rw [hx]
          exact List.mem_cons_self _ _
        · exact List.mem_cons_of_mem _ (hmem e h3)
      · rw [if_neg hx] at h2
        exact absurd h2 (by simp)

/-- C6: the Validator rejects every URL whose host has a label with a leading
or trailing dash, and accepts every host made of well-formed labels (internal
dashes only) followed by an alphanumeric top-level label, within the length
bounds of the grammar. -/
theorem c6_validator_dash_labels :
    (∀ ls : List (List Char),
      (∀ l ∈ ls, l ≠ [] ∧ l.all isAlnumDash = true) →
      (∃ l ∈ ls, l.head? = some '-' ∨ l.getLast? = some '-') →
      _is_valid_url ("https://".toList ++ joinDots ls) = false) ∧
    (∀ (front : List (List Char)) (tld : List Char),
      front ≠ [] → (∀ l ∈ front, labelOk l = true) →
      tld.all pyIsAlnum = true → 1 ≤ tld.length → tld.length ≤ 63 →
      (joinDots (front ++ [tld])).length ≤ 253 →
      _is_valid_url ("https://".toList ++ joinDots (front ++ [tld])) = true) := by
  constructor
  · intro ls hgood hbad
    unfold _is_valid_url URL_PATTERN_match
    rw [show stripSchemePart ("https://".toList ++ joinDots ls) = some (joinDots ls)
      from rfl]
    show (matchAuthThen (joinDots ls) || matchHostPort (joinDots ls)) = false
    have hhost : ∀ c ∈ joinDots ls,
        (pyIsAlnum c || decide (c = '-') || decide (c = '.')) = true := by
      intro c hc
      rcases mem_joinDots ls c hc with ⟨l, hl, hcl⟩ | h
      · have hx := List.all_eq_true.mp (hgood l hl).2 c hcl
        unfold isAlnumDash at hx
        rw [hx]
        rfl
      · subst h
        decide
    have hauth : matchAuthThen (joinDots ls) = false := by
      apply matchAuthThen_noColon
      intro c hc
      exact (hostChar_facts c (hhost c hc)).1
    rw [hauth]
    simp only [Bool.false_or]
    unfold matchHostPort
    rw [hostBody_reject ls hgood hbad, Bool.and_false]
    simp only [Bool.false_or]
    rcases hml : matchLit "localhost".toList (joinDots ls) with _ | r
    · rfl
    · obtain ⟨pre, hpre, hlen, hmem⟩ := matchLit_decomp _ _ _ hml
      cases r with
      | cons c r2 =>
        have hcmem : c ∈ joinDots ls := by
          rw [hpre]
          exact List.mem_append.mpr (Or.inr (List.mem_cons_self _ _))
        have hf := hostChar_facts c (hhost c hcmem)
        show matchPortTail (c :: r2) = false
        exact matchPortTail_cons_false c r2 hf.1 hf.2.1 hf.2.2.1 hf.2.2.2.1
      | nil =>
        exfalso
        obtain ⟨lb, hlb, hbadl⟩ := hbad
        have hdl : '-' ∈ lb := by
          rcases hbadl with h | h
          · cases lb with
            | nil => simp at h
            | cons x xs =>
              rw [List.head?_cons] at h
              rw [← Option.some.inj h]
              exact List.mem_cons_self _ _
          · exact mem_of_getLastOpt _ _ h
        have hdmem : '-' ∈ joinDots ls := mem_joinDots_of_mem ls lb '-' hlb hdl
        rw [List.append_nil] at hpre
        rw [hpre] at hdmem
        have := hmem '-' hdmem
        rw [show toLowerChar '-' = '-' from rfl] at this
        exact absurd this (by decide)
  · intro front tld hfe hok h1 h2 h3 hlen
    unfold _is_valid_url URL_PATTERN_match
    rw [show stripSchemePart ("https://".toList ++ joinDots (front ++ [tld])) =
      some (joinDots (front ++ [tld])) from rfl]
    show (matchAuthThen (joinDots (front ++ [tld])) ||
      matchHostPort (joinDots (front ++ [tld]))) = true
    have hns : ∀ c ∈ joinDots (front ++ [tld]), pyIsSpace c = false := by
      intro c hc
      rcases mem_joinDots _ c hc with ⟨l, hl, hcl⟩ | hdot
      · rcases List.mem_append.mp hl with hfr | htl
        · have hx := List.all_eq_true.mp (labelOk_chars l (hok l hfr)).2 c hcl
          refine (hostChar_facts c ?_).2.2.2.2.2
          unfold isAlnumDash at hx
          rw [hx]
          rfl
        · have hltld : l = tld := List.mem_singleton.mp htl
          subst hltld
          have hx := List.all_eq_true.mp h1 c hcl
          refine (hostChar_facts c ?_).2.2.2.2.2
          rw [hx]
          rfl
      · subst hdot
        decide
    have hhp : matchHostPort (joinDots (front ++ [tld])) = true := by
      unfold matchHostPort
      rw [hostBody_accept front tld hfe hok h1 h2 h3,
        lookahead_nonspace 253 _ hlen hns]
      rfl
    rw [hhp]
    simp

/-- C6 witness: the host `-bad.com` (leading dash) is rejected and the host
`good-site.com` (internal dash) is accepted, each under the https scheme. -/
theorem c6_validator_dash_labels_witness :
    _is_valid_url "https://-bad.com".toList = false ∧
    _is_valid_url "https://good-site.com".toList = true := by
  constructor
  · have h := c6_validator_dash_labels.1 ["-bad".toList, "com".toList]
      (by decide) ⟨"-bad".toList, by decide⟩
    exact h
  · have h := c6_validator_dash_labels.2 ["good-site".toList] "com".toList
      (by decide) (by decide) (by decide) (by decide) (by decide) (by decide)
    exact h
end Vat
